import Mathlib

/-!
Verification development for the nebula-client directory snapshot and
inspection services, together with the text-analysis helpers.

The filesystem is modelled as a finite rose tree (`FSNode`); paths are
modelled as lists of name segments, rendered with forward slashes as on
POSIX.  Python `str` values are Lean `String`s; `str.lower`, `str.isalnum`
and `str.strip` are modelled at ASCII level, which is enough for every
property proved here since both sides of each comparison use the same
model.  Timestamps are modelled structurally (`Timestamp`), mirroring the
fields `strftime` reads.
-/

namespace Nebula

/-- One filesystem node: a regular file or a directory with children.
`stSize` models `stat().st_size`, `mtime` models `stat().st_mtime`. -/
inductive FSNode : Type where
  | file (name : String) (stSize : Nat) (mtime : Nat) : FSNode
  | dir (name : String) (stSize : Nat) (mtime : Nat) (children : List FSNode) : FSNode

/-- Base name of the node, as `Path.name` / `entry.name`. -/
def FSNode.name : FSNode → String
  | .file n _ _ => n
  | .dir n _ _ _ => n

/-- Models `path.is_dir()`. -/
def FSNode.isDir : FSNode → Bool
  | .file _ _ _ => false
  | .dir _ _ _ _ => true

/-- Models `stat().st_size`. -/
def FSNode.stSize : FSNode → Nat
  | .file _ s _ => s
  | .dir _ s _ _ => s

/-- Models `stat().st_mtime` (converted to a UTC timestamp by the code). -/
def FSNode.mtime : FSNode → Nat
  | .file _ _ m => m
  | .dir _ _ m _ => m

/-- Children of a directory; a regular file has none. -/
def FSNode.children : FSNode → List FSNode
  | .file _ _ _ => []
  | .dir _ _ _ cs => cs

mutual

/-- Number of nodes in the tree (termination measure for the walk). -/
def FSNode.size : FSNode → Nat
  | .file _ _ _ => 1
  | .dir _ _ _ cs => 1 + FSNode.sizeList cs

/-- Total number of nodes in a forest. -/
def FSNode.sizeList : List FSNode → Nat
  | [] => 0
  | c :: cs => FSNode.size c + FSNode.sizeList cs

end

/-- Models `name.startswith(".")`: the first character is a dot. -/
def isHidden (s : String) : Bool := s.data.head? = some '.'

/-- ASCII model of Python `str.lower`, the sort key `name.lower()`. -/
def pyLower (s : String) : String := String.mk (s.data.map Char.toLower)

/-- Lexicographic comparison of character lists by code point, as Python
compares strings. -/
def listLE : List Char → List Char → Bool
  | [], _ => true
  | _ :: _, [] => false
  | a :: as, b :: bs => if a = b then listLE as bs else decide (a < b)

/-- Comparison used by `sorted(..., key=lambda name: name.lower())`:
case-insensitive ascending. -/
def lowerLe (a b : String) : Bool := listLE (pyLower a).data (pyLower b).data

/-- The sort relation on nodes: case-insensitive name order, as the
`sorted` calls with `key=lambda name: name.lower()` use. -/
def nameLeP (a b : FSNode) : Prop := lowerLe a.name b.name = true

instance : DecidableRel nameLeP := fun a b => Bool.decEq (lowerLe a.name b.name) true

instance : IsTotal FSNode nameLeP := by
  constructor
  intro u v
  have h : ∀ (a b : List Char), (listLE a b || listLE b a) = true := by
    intro a
    induction a with
    | nil => intro b; simp [listLE]
    | cons x xs ih =>
      intro b
      cases b with
      | nil => simp [listLE]
      | cons y ys =>
        by_cases hxy : x = y
        · subst hxy
          simp only [listLE, if_pos rfl]
          exact ih ys
        · rcases lt_or_gt_of_ne hxy with h | h
          · simp [listLE, hxy, h]
          · have hyx : ¬ y = x := fun h2 => hxy h2.symm
            simp [listLE, hxy, hyx, h, not_lt_of_gt h]
  have h2 := h (pyLower u.name).data (pyLower v.name).data
  rcases Bool.or_eq_true_iff.mp h2 with h1 | h1
  · exact Or.inl h1
  · exact Or.inr h1

instance : IsTrans FSNode nameLeP := by
  constructor
  have key : ∀ (a b c : List Char), listLE a b = true → listLE b c = true →
      listLE a c = true := by
    intro a
    induction a with
    | nil => intro b c _ _; simp [listLE]
    | cons x xs ih =>
      intro b c h1 h2
      cases b with
      | nil => simp [listLE] at h1
      | cons y ys =>
        cases c with
        | nil => simp [listLE] at h2
        | cons z zs =>
          by_cases hxy : x = y <;> by_cases hyz : y = z
          · subst hxy; subst hyz
            simp only [listLE, if_pos rfl] at h1 h2 ⊢
            exact ih ys zs h1 h2
          · subst hxy
            simp only [listLE, if_pos rfl] at h1
            simp only [listLE, if_neg hyz, decide_eq_true_eq] at h2
            simp only [listLE, if_neg hyz, decide_eq_true_eq]
            exact h2
          · subst hyz
            simp only [listLE, if_neg hxy, decide_eq_true_eq] at h1
            simp only [listLE, if_neg hxy, decide_eq_true_eq]
            exact h1
          · simp only [listLE, if_neg hxy, decide_eq_true_eq] at h1
            simp only [listLE, if_neg hyz, decide_eq_true_eq] at h2
            have hxz : x < z := lt_trans h1 h2
            have hne : ¬ x = z := ne_of_lt hxz
            simp only [listLE, if_neg hne, decide_eq_true_eq]
            exact hxz
  intro u v w h1 h2
  exact key _ _ _ h1 h2

/-- Models Python's stable `sorted(nodes, key=lambda p: p.name.lower())`
(insertion sort is stable, like Python's sort). -/
def sortCI (l : List FSNode) : List FSNode := List.insertionSort nameLeP l

/-- Rendering of a relative path as `str(path.relative_to(root))` produces
on POSIX: the segments joined with forward slashes. -/
def joinSegs : List String → String
  | [] => ""
  | [s] => s
  | s :: rest => s ++ "/" ++ joinSegs rest

/-- Structured metadata describing a filesystem entry, as the dataclass
`SnapshotEntry`.  The relative path is kept as its list of segments; the
string field of the dataclass is recovered by `relative_path`. -/
structure SnapshotEntry : Type where
  relSegs : List String
  is_directory : Bool
  size_bytes : Nat
  modified_at : Nat
deriving DecidableEq, Repr

/-- The `relative_path` string field of the dataclass. -/
def SnapshotEntry.relative_path (e : SnapshotEntry) : String := joinSegs e.relSegs

/-- Models `SnapshotEntry.from_path(root, path)` for `path` the child named
`node.name` of the directory whose path relative to the root is `rel`:
`relative_path = path.relative_to(root)`, `size_bytes = 0` for directories
else `st_size`, `modified_at` from `st_mtime`. -/
def SnapshotEntry.from_path (rel : List String) (node : FSNode) : SnapshotEntry :=
  { relSegs := rel ++ [node.name]
    is_directory := node.isDir
    size_bytes := if node.isDir then 0 else node.stSize
    modified_at := node.mtime }

/-- The loop body plus generator of `_iter_snapshot_entries`, one `os.walk`
frame per directory: partition the children into subdirectories and files,
drop hidden names, sort each group case-insensitively, yield an entry per
visible subdirectory then one per visible file, then walk the visible
subdirectories in sorted order (the in-place `dirnames[:] = ...` assignment
prunes hidden subdirectories from the walk itself). -/
def walkDir (rel : List String) (children : List FSNode) : List SnapshotEntry :=
  let dirnames := sortCI (children.filter (fun c => c.isDir && ! isHidden c.name))
  let visible_files := sortCI (children.filter (fun c => ! c.isDir && ! isHidden c.name))
  (dirnames.map (fun c => SnapshotEntry.from_path rel c)) ++
  (visible_files.map (fun c => SnapshotEntry.from_path rel c)) ++
  (dirnames.attach.map (fun x => walkDir (rel ++ [x.1.name]) x.1.children)).flatten
termination_by FSNode.sizeList children
decreasing_by
  have hx : x.1 ∈ children := by
    have h1 := x.2
    have h2 := (List.mem_insertionSort nameLeP).mp h1
    exact (List.mem_filter.mp h2).1
  have hsize : ∀ (cs : List FSNode), ∀ c ∈ cs, FSNode.size c ≤ FSNode.sizeList cs := by
    intro cs
    induction cs with
    | nil => intro c hc; cases hc
    | cons d ds ih =>
      intro c hc
      rw [FSNode.sizeList]
      rcases List.mem_cons.mp hc with h | h
      · subst h; exact Nat.le_add_right _ _
      · exact le_add_of_nonneg_of_le (Nat.zero_le _) (ih c h)
  have h1 := hsize children x.1 hx
  have h2 : FSNode.size x.1 = 1 + FSNode.sizeList x.1.children := by
    rcases x with ⟨c, hc⟩
    cases c <;> rfl
  omega

/-- Models `_iter_snapshot_entries(root)`: `os.walk` starting at the root
(which yields nothing for a non-directory). -/
def iterSnapshotEntries (root : FSNode) : List SnapshotEntry :=
  walkDir [] root.children

/-- Models `_chunk_entries(entries, page_size)`: the `range(0, len, p)`
loop of slices `entries[start : start + p]`, the whole list as one chunk
when the page size is unset or non-positive. -/
def chunk_entries {α : Type} (entries : List α) (page_size : Option Int) :
    List (List α) :=
  match page_size with
  | none => [entries]
  | some p =>
    if p ≤ 0 then [entries]
    else
      ((List.range ((entries.length + p.toNat - 1) / p.toNat)).map
        (fun i => i * p.toNat)).map
        (fun start => (entries.drop start).take p.toNat)

/-- The chunk list `snapshot_directory` actually uses: `_chunk_entries`
followed by the `if not chunks: chunks = [entries]` patch. -/
def snapshotChunks {α : Type} (entries : List α) (page_size : Option Int) :
    List (List α) :=
  let chunks := chunk_entries entries page_size
  if chunks.isEmpty then [entries] else chunks

/-- The timestamp fields `strftime("%Y%m%dT%H%M%SZ")` reads. -/
structure Timestamp : Type where
  year : Nat
  month : Nat
  day : Nat
  hour : Nat
  minute : Nat
  second : Nat
deriving DecidableEq, Repr

/-- Decimal rendering zero-padded on the left to `width`, as `%02d`
style formatting does for non-negative values. -/
def padZeros (width : Nat) (n : Nat) : String :=
  let s := toString n
  String.mk (List.replicate (width - s.length) '0') ++ s

/-- Models `generated_at.strftime("%Y%m%dT%H%M%SZ")`. -/
def strftimeBasic (t : Timestamp) : String :=
  padZeros 4 t.year ++ padZeros 2 t.month ++ padZeros 2 t.day ++ "T" ++
    padZeros 2 t.hour ++ padZeros 2 t.minute ++ padZeros 2 t.second ++ "Z"

/-- ASCII model of Python `ch.isalnum()`. -/
def pyIsAlnum (c : Char) : Bool := c.isAlphanum

/-- Models `_build_snapshot_path(snapshot_root, directory, generated_at,
page_index, page_count)`; `directoryName` is `directory.name` and the
result is rendered as `snapshot_root / filename` on POSIX. -/
def build_snapshot_path (snapshot_root : String) (directoryName : String)
    (generated_at : Timestamp) (page_index : Nat) (page_count : Nat) : String :=
  let slug := if directoryName = "" then "root" else directoryName
  let safe_slug :=
    String.mk (slug.data.map
      (fun ch => if pyIsAlnum ch || ch = '-' || ch = '_' then ch else '_'))
  let timestamp := strftimeBasic generated_at
  let suffix := if page_count > 1 then "_p" ++ padZeros 3 page_index else ""
  let filename := safe_slug ++ "_" ++ timestamp ++ suffix ++ ".json"
  snapshot_root ++ "/" ++ filename

/-- Represents a single JSON snapshot file for a directory. -/
structure SnapshotPage : Type where
  page : Nat
  path : String
  entry_count : Nat
deriving DecidableEq, Repr

/-- Outcome details for a directory snapshot request. -/
structure FolderSnapshotResult : Type where
  directory : String
  generated_at : Timestamp
  total_entries : Nat
  page_size : Option Int
  pages : List SnapshotPage
deriving DecidableEq, Repr

/-- The `page_count` property of the result dataclass. -/
def FolderSnapshotResult.page_count (r : FolderSnapshotResult) : Nat :=
  r.pages.length

/-- Models `snapshot_directory(raw_path, page_size)` after the path has
resolved to the directory tree `root`: collect the walk entries, chunk
them (patching an empty chunk list to one empty chunk), and build one
page per chunk with the shared `generated_at` timestamp.  `snapshot_root`
is the resolved snapshot output directory, `directoryPath` the resolved
absolute path string and `directoryName` its base name.  File writing is
a side effect outside the model. -/
def snapshot_directory (snapshot_root : String) (generated_at : Timestamp)
    (directoryPath : String) (directoryName : String) (root : FSNode)
    (page_size : Option Int) : FolderSnapshotResult :=
  let entries := iterSnapshotEntries root
  let chunks := snapshotChunks entries page_size
  let pages := chunks.enum.map (fun ic =>
    { page := ic.1 + 1
      path := build_snapshot_path snapshot_root directoryName generated_at
        (ic.1 + 1) chunks.length
      entry_count := ic.2.length : SnapshotPage })
  { directory := directoryPath
    generated_at := generated_at
    total_entries := entries.length
    page_size := page_size
    pages := pages }

/-! ## Directory inspection (`folder_inspection.py`) -/

/-- Internal representation of a directory entry (dataclass
`DirectoryEntry`). -/
structure DirectoryEntry : Type where
  name : String
  path : String
  is_directory : Bool
  size_bytes : Nat
  modified_at : Nat
deriving DecidableEq, Repr

/-- Models `DirectoryEntry.from_path(entry_path)` for the child `node` of
the directory whose path string is `dirPath`. -/
def DirectoryEntry.from_path (dirPath : String) (node : FSNode) : DirectoryEntry :=
  { name := node.name
    path := dirPath ++ "/" ++ node.name
    is_directory := node.isDir
    size_bytes := if node.isDir then 0 else node.stSize
    modified_at := node.mtime }

/-- Models `_iter_directory_entries(directory)`: iterate the children
sorted by `p.name.lower()`, skipping names that start with a dot. -/
def iter_directory_entries (dirPath : String) (children : List FSNode) :
    List DirectoryEntry :=
  ((sortCI children).filter (fun c => ! isHidden c.name)).map
    (DirectoryEntry.from_path dirPath)

/-- The single domain exception type `DirectoryInspectionError`, carrying
its human-readable message. -/
structure DirectoryInspectionError : Type where
  message : String
deriving DecidableEq, Repr

/-- Outcome of `Path(raw_path).expanduser().resolve(strict=True)` followed
by the `is_dir()` test: the path may not exist, may resolve to a
non-directory, or resolves to a directory with the given normalized path
string, base name and children. -/
inductive ResolveOutcome : Type where
  | notFound : ResolveOutcome
  | nonDirectory (path : String) : ResolveOutcome
  | directory (path : String) (children : List FSNode) : ResolveOutcome

/-- Models `_normalize_directory(raw_path)`: translate a missing path or a
non-directory into the domain exception, otherwise return the normalized
directory. -/
def normalize_directory (outcome : ResolveOutcome) :
    Except DirectoryInspectionError (String × List FSNode) :=
  match outcome with
  | .notFound => .error { message := "해당 경로가 존재하지 않습니다." }
  | .nonDirectory _ => .error { message := "디렉터리 경로를 선택해주세요." }
  | .directory p cs => .ok (p, cs)

/-- Models `resolve_directory(raw_path)`. -/
def resolve_directory (outcome : ResolveOutcome) :
    Except DirectoryInspectionError (String × List FSNode) :=
  normalize_directory outcome

/-- Response schema `FileInfo`. -/
structure FileInfo : Type where
  name : String
  path : String
  is_directory : Bool
  size_bytes : Nat
  modified_at : Nat
deriving DecidableEq, Repr

/-- Response schema `FolderContentsResponse`. -/
structure FolderContentsResponse : Type where
  directory : String
  entries : List FileInfo
deriving DecidableEq, Repr

/-- Models `inspect_directory(raw_path)`. -/
def inspect_directory (outcome : ResolveOutcome) :
    Except DirectoryInspectionError FolderContentsResponse :=
  match resolve_directory outcome with
  | .error e => .error e
  | .ok pcs =>
    .ok { directory := pcs.1
          entries := (iter_directory_entries pcs.1 pcs.2).map (fun e =>
            { name := e.name
              path := e.path
              is_directory := e.is_directory
              size_bytes := e.size_bytes
              modified_at := e.modified_at }) }

/-- An HTTP error response raised by the route handlers. -/
structure HTTPErrorResponse : Type where
  status_code : Nat
  detail : String
deriving DecidableEq, Repr

/-- Models the `/folders/inspect` handler `inspect_folder`: a
`DirectoryInspectionError` becomes status 400 with the exception message
as detail. -/
def inspect_folder (outcome : ResolveOutcome) :
    Except HTTPErrorResponse FolderContentsResponse :=
  match inspect_directory outcome with
  | .error e => .error { status_code := 400, detail := e.message }
  | .ok r => .ok r

/-! ## Path validity helpers for the relative-path claims -/

/-- A plausible POSIX file name: nonempty, not a dot link, no separator. -/
def validName (s : String) : Bool :=
  (s ≠ "" && s ≠ "." && s ≠ "..") && ! s.data.contains '/'

mutual

/-- Every name in the tree is a valid POSIX file name. -/
def wfNames : FSNode → Bool
  | .file n _ _ => validName n
  | .dir n _ _ cs => validName n && wfNamesList cs

/-- `wfNames` over a forest. -/
def wfNamesList : List FSNode → Bool
  | [] => true
  | c :: cs => wfNames c && wfNamesList cs

end

/-- `hasPathChildren cs segs` holds when `segs` labels a descent through
the forest `cs`: each segment names a child of the previous node. -/
def hasPathChildren : List FSNode → List String → Bool
  | _, [] => true
  | cs, s :: rest => cs.any (fun c => c.name == s && hasPathChildren c.children rest)

/-- `segs` labels a descent below `node`. -/
def hasPath (node : FSNode) (segs : List String) : Bool :=
  hasPathChildren node.children segs

/-! ## Sentence splitting (`sentence_splitter.py`) -/

/-- The characters of the pattern `[.!?]+`. -/
def isSentenceEnding (c : Char) : Bool := c = '.' || c = '!' || c = '?'

/-- ASCII model of the Python `str.strip` whitespace set. -/
def pyIsSpace (c : Char) : Bool :=
  c = ' ' || c = '\t' || c = '\n' || c = '\r' || c = '\x0b' || c = '\x0c'

/-- `str.strip()` on the character list: drop whitespace at both ends. -/
def pyStripChars (l : List Char) : List Char :=
  ((l.dropWhile pyIsSpace).reverse.dropWhile pyIsSpace).reverse

/-- Models Python `text.strip()`. -/
def pyStrip (s : String) : String := String.mk (pyStripChars s.data)

/-- Models `re.split(r"[.!?]+", text)`: the fragments between maximal runs
of sentence-ending characters, including the (possibly empty) fragments
before the first run and after the last. -/
def reSplitRuns : List Char → List (List Char)
  | [] => [[]]
  | c :: rest =>
    let r := reSplitRuns rest
    if isSentenceEnding c then
      match rest with
      | [] => [[], []]
      | d :: _ => if isSentenceEnding d then r else [] :: r
    else
      match r with
      | [] => [[c]]
      | h :: t => (c :: h) :: t

/-- Models `split_sentences_ko(text)`: early-return `[]` for empty or
whitespace-only text, otherwise split on `[.!?]+`, strip each fragment and
drop the ones that strip to empty. -/
def split_sentences_ko (text : String) : List String :=
  if text = "" || pyStrip text = "" then []
  else
    ((reSplitRuns text.data).map (fun l => String.mk (pyStripChars l))).filter
      (fun s => s ≠ "")

/-! ## Keyword extraction (`keyword_extractor.py`) -/

/-- A dynamically-typed Python argument: a string or any non-string
value. -/
inductive PyValue : Type where
  | str (s : String) : PyValue
  | nonStr : PyValue

/-- The `TypeError` raised on non-string input. -/
inductive PyTextError : Type where
  | typeError (msg : String) : PyTextError
deriving DecidableEq, Repr

/-- Models `text.replace("\x00", " ")`: the pattern and the replacement
are single characters, so the replacement is character-wise. -/
def replaceNullBytes (s : String) : String :=
  String.mk (s.data.map (fun c => if c = Char.ofNat 0 then ' ' else c))

/-- Models `keybert_analyze(text, top_n_keywords)` with the KeyBERT calls
abstracted: `extract_keywords` stands for the single-word keyword call and
`extract_per_sentence` for the per-sentence 5–10-gram call on the sentence
list; their scoring lives in the wrapped library.  Non-string input raises
`TypeError` before the models are touched; otherwise null bytes are
replaced by spaces, keywords are extracted from the sanitized text, and one
top item per sentence is collected from the per-sentence results. -/
def keybert_analyze {K S : Type} (extract_keywords : String → List K)
    (extract_per_sentence : List String → List (List S)) (text : PyValue) :
    Except PyTextError (List K × List S) :=
  match text with
  | .nonStr => .error (.typeError "text must be a string")
  | .str s0 =>
    let s := replaceNullBytes s0
    let keywords := extract_keywords s
    let sents := split_sentences_ko s
    let key_sents :=
      if sents.isEmpty then []
      else (extract_per_sentence sents).filterMap (fun items => items.head?)
    .ok (keywords, key_sents)

/-! ## Basic lemmas about sizes, sorting and the walk -/

theorem FSNode.size_eq_children (c : FSNode) :
    FSNode.size c = 1 + FSNode.sizeList c.children := by
  cases c <;> rfl

theorem FSNode.size_le_sizeList {c : FSNode} {cs : List FSNode} (h : c ∈ cs) :
    FSNode.size c ≤ FSNode.sizeList cs := by
  induction cs with
  | nil => cases h
  | cons d ds ih =>
    rw [FSNode.sizeList]
    rcases List.mem_cons.mp h with h1 | h2
    · subst h1; exact Nat.le_add_right _ _
    · exact le_add_of_nonneg_of_le (Nat.zero_le _) (ih h2)

theorem sortCI_perm (l : List FSNode) : (sortCI l).Perm l :=
  List.perm_insertionSort nameLeP l

theorem sortCI_sorted (l : List FSNode) :
    (sortCI l).Pairwise nameLeP :=
  List.sorted_insertionSort nameLeP l

theorem mem_sortCI {c : FSNode} {l : List FSNode} : c ∈ sortCI l ↔ c ∈ l :=
  List.mem_insertionSort nameLeP

/-- Unfolding equation for the walk, with the descent written as a plain
`flatMap` over the sorted visible subdirectories. -/
theorem walkDir_eq (rel : List String) (children : List FSNode) :
    walkDir rel children =
      (sortCI (children.filter (fun c => c.isDir && ! isHidden c.name))).map
        (fun c => SnapshotEntry.from_path rel c) ++
      (sortCI (children.filter (fun c => ! c.isDir && ! isHidden c.name))).map
        (fun c => SnapshotEntry.from_path rel c) ++
      (sortCI (children.filter (fun c => c.isDir && ! isHidden c.name))).flatMap
        (fun c => walkDir (rel ++ [c.name]) c.children) := by
  rw [walkDir]
  rw [List.flatMap_def]
  congr 1
  exact congrArg List.flatten
    (List.attach_map_coe _ (fun c : FSNode => walkDir (rel ++ [c.name]) c.children))

/-! ## Chunking lemmas -/

theorem ceil_div_succ (k : Nat) (hk : 1 ≤ k) (len : Nat) (hlen : 1 ≤ len) :
    (len + k - 1) / k = (len - k + k - 1) / k + 1 := by
  by_cases hc : k ≤ len
  · have e1 : len + k - 1 = (len - 1) + k := by omega
    have e2 : len - k + k - 1 = len - 1 := by omega
    rw [e1, Nat.add_div_right _ (by omega), e2]
  · have e2 : len - k = 0 := by omega
    have h2 : (len + k - 1) / k = 1 := Nat.div_eq_of_lt_le (by omega) (by omega)
    have h1 : (0 + k - 1) / k = 0 := Nat.div_eq_of_lt (by omega)
    rw [e2, h1, h2]

theorem posChunks_flatten_aux {α : Type} (k : Nat) (hk : 1 ≤ k) :
    ∀ (n : Nat) (xs : List α), xs.length = n →
      (((List.range ((xs.length + k - 1) / k)).map (fun i => i * k)).map
        (fun start => (xs.drop start).take k)).flatten = xs := by
  intro n
  induction n using Nat.strong_induction_on with
  | _ n ih =>
    intro xs hlen
    cases xs with
    | nil =>
      have h0 : (0 + k - 1) / k = 0 := Nat.div_eq_of_lt (by omega)
      simp [h0]
    | cons x t =>
      have hlen1 : 1 ≤ (x :: t).length := by simp
      have key := ceil_div_succ k hk (x :: t).length hlen1
      set ys := (x :: t).drop k with hys
      have hyslen : ys.length = (x :: t).length - k := by
        rw [hys, List.length_drop]
      have hlt : ys.length < n := by
        rw [hyslen]
        simp only [List.length_cons] at hlen ⊢
        omega
      have ihy := ih ys.length hlt ys rfl
      have hcount : (x :: t).length - k + k - 1 = ys.length + k - 1 := by omega
      rw [key, hcount] at *
      rw [List.range_succ_eq_map]
      rw [List.map_cons, List.map_cons]
      rw [List.flatten_cons]
      have htail :
          List.map (fun start => ((x :: t).drop start).take k)
            (List.map (fun i => i * k) (List.map Nat.succ
              (List.range ((ys.length + k - 1) / k)))) =
          List.map (fun start => (ys.drop start).take k)
            (List.map (fun i => i * k)
              (List.range ((ys.length + k - 1) / k))) := by
        rw [List.map_map, List.map_map, List.map_map]
        apply List.map_congr_left
        intro i _
        simp only [Function.comp_apply]
        rw [hys, List.drop_drop]
        have : Nat.succ i * k = k + i * k := by
          rw [Nat.succ_mul]; omega
        rw [this]
      rw [htail, ihy]
      simp only [Nat.zero_mul, List.drop_zero]
      rw [hys, List.take_append_drop]

theorem posChunks_flatten {α : Type} (k : Nat) (hk : 1 ≤ k) (xs : List α) :
    (((List.range ((xs.length + k - 1) / k)).map (fun i => i * k)).map
      (fun start => (xs.drop start).take k)).flatten = xs :=
  posChunks_flatten_aux k hk xs.length xs rfl

theorem chunk_entries_flatten {α : Type} (xs : List α) (ps : Option Int) :
    (chunk_entries xs ps).flatten = xs := by
  match ps with
  | none => simp [chunk_entries]
  | some p =>
    rw [chunk_entries]
    by_cases hp : p ≤ 0
    · simp [hp]
    · have hk : 1 ≤ p.toNat := by omega
      simp only [hp, if_false]
      exact posChunks_flatten p.toNat hk xs

/-- C9: concatenating the chunks returned by `_chunk_entries(xs, P)` in
order yields exactly `xs` for every entry list `xs` and every `page_size`
`P` — no entry is lost, duplicated or reordered by chunking. -/
theorem c9_chunk_concat (xs : List SnapshotEntry) (ps : Option Int) :
    (chunk_entries xs ps).flatten = xs :=
  chunk_entries_flatten xs ps

/-! ## Lemmas about the patched chunk list and the result pages -/

theorem snapshotChunks_flatten {α : Type} (xs : List α) (ps : Option Int) :
    (snapshotChunks xs ps).flatten = xs := by
  simp only [snapshotChunks]
  by_cases h : (chunk_entries xs ps).isEmpty
  · simp [h]
  · simp [h, chunk_entries_flatten]

theorem chunk_entries_length_pos {α : Type} (xs : List α) (p : Int) (hp : 0 < p) :
    (chunk_entries xs (some p)).length = (xs.length + p.toNat - 1) / p.toNat := by
  have hnp : ¬ p ≤ 0 := not_le.mpr hp
  rw [chunk_entries]
  simp [hnp]

theorem snapshotChunks_nonpos {α : Type} (xs : List α) (ps : Option Int)
    (h : ps = none ∨ ∃ p : Int, ps = some p ∧ p ≤ 0) :
    snapshotChunks xs ps = [xs] := by
  rcases h with h | ⟨p, hps, hp⟩
  · subst h
    simp [snapshotChunks, chunk_entries]
  · subst hps
    simp [snapshotChunks, chunk_entries, hp]

theorem snapshotChunks_length_pos {α : Type} (xs : List α) (p : Int) (hp : 0 < p) :
    (snapshotChunks xs (some p)).length =
      if xs.length = 0 then 1 else (xs.length + p.toNat - 1) / p.toNat := by
  have hk : 1 ≤ p.toNat := by omega
  by_cases hx : xs.length = 0
  · have hc : (chunk_entries xs (some p)).length = 0 := by
      rw [chunk_entries_length_pos xs p hp, hx]
      exact Nat.div_eq_of_lt (by omega)
    have he : (chunk_entries xs (some p)).isEmpty = true := by
      rw [List.isEmpty_iff]
      exact List.length_eq_zero.mp hc
    simp [snapshotChunks, he, hx]
  · have hge : 1 ≤ (chunk_entries xs (some p)).length := by
      rw [chunk_entries_length_pos xs p hp]
      rw [Nat.one_le_div_iff (by omega)]
      omega
    have he : (chunk_entries xs (some p)).isEmpty = false := by
      rcases hl : chunk_entries xs (some p) with _ | ⟨c, cs⟩
      · rw [hl] at hge; simp at hge
      · rfl
    simp only [snapshotChunks, he, Bool.false_eq_true, if_false]
    rw [chunk_entries_length_pos xs p hp]
    simp [hx]

theorem snapshotChunks_le {α : Type} (xs : List α) (p : Int) (hp : 0 < p) :
    ∀ c ∈ snapshotChunks xs (some p), c.length ≤ p.toNat := by
  intro c hc
  simp only [snapshotChunks] at hc
  by_cases he : (chunk_entries xs (some p)).isEmpty
  · rw [if_pos he] at hc
    -- the patch only fires when there are no chunks, i.e. no entries
    have hc0 : (chunk_entries xs (some p)).length = 0 :=
      List.length_eq_zero.mpr (List.isEmpty_iff.mp he)
    rw [chunk_entries_length_pos xs p hp] at hc0
    have hx : xs.length = 0 := by
      by_contra hx
      rw [Nat.div_eq_zero_iff (by omega)] at hc0
      omega
    have hxnil : xs = [] := List.length_eq_zero.mp hx
    subst hxnil
    rcases List.mem_singleton.mp hc with h
    subst h
    simp
  · rw [if_neg he] at hc
    have hnp : ¬ p ≤ 0 := not_le.mpr hp
    rw [chunk_entries] at hc
    simp only [hnp, if_false] at hc
    rw [List.mem_map] at hc
    obtain ⟨start, _, hstart⟩ := hc
    subst hstart
    rw [List.length_take]
    omega

theorem snapshot_pages_length (sr : String) (t : Timestamp) (dp dn : String)
    (root : FSNode) (ps : Option Int) :
    (snapshot_directory sr t dp dn root ps).pages.length =
      (snapshotChunks (iterSnapshotEntries root) ps).length := by
  simp [snapshot_directory, List.enum_length]

theorem snapshot_pages_entry_counts (sr : String) (t : Timestamp) (dp dn : String)
    (root : FSNode) (ps : Option Int) :
    (snapshot_directory sr t dp dn root ps).pages.map (fun pg => pg.entry_count) =
      (snapshotChunks (iterSnapshotEntries root) ps).map List.length := by
  simp only [snapshot_directory]
  rw [List.map_map]
  conv_rhs => rw [← List.enum_map_snd (snapshotChunks (iterSnapshotEntries root) ps)]
  rw [List.map_map]
  rfl

theorem snapshot_pages_page_numbers (sr : String) (t : Timestamp) (dp dn : String)
    (root : FSNode) (ps : Option Int) :
    (snapshot_directory sr t dp dn root ps).pages.map (fun pg => pg.page) =
      List.range' 1 (snapshotChunks (iterSnapshotEntries root) ps).length := by
  simp only [snapshot_directory]
  rw [List.map_map]
  have h1 : ((fun pg : SnapshotPage => pg.page) ∘ (fun ic : Nat × List SnapshotEntry =>
      ({ page := ic.1 + 1
         path := build_snapshot_path sr dn t (ic.1 + 1)
           (snapshotChunks (iterSnapshotEntries root) ps).length
         entry_count := ic.2.length } : SnapshotPage))) =
      ((fun x => x + 1) ∘ (Prod.fst : Nat × List SnapshotEntry → Nat)) := rfl
  rw [h1]
  rw [← List.map_map]
  rw [List.enum_map_fst]
  rw [List.range'_eq_map_range]
  exact List.map_congr_left (fun x _ => by omega)

/-- C3: for every result of `snapshot_directory`, the page entry counts
sum to `total_entries`, the page numbers are `1, 2, ...` contiguously in
order, and a null `page_size` yields exactly one page. -/
theorem c3_snapshot_result_invariants (sr : String) (t : Timestamp) (dp dn : String)
    (root : FSNode) (ps : Option Int) :
    (((snapshot_directory sr t dp dn root ps).pages.map (fun pg => pg.entry_count)).sum =
      (snapshot_directory sr t dp dn root ps).total_entries) ∧
    ((snapshot_directory sr t dp dn root ps).pages.map (fun pg => pg.page) =
      List.range' 1 (snapshot_directory sr t dp dn root ps).pages.length) ∧
    (ps = none → (snapshot_directory sr t dp dn root ps).pages.length = 1) := by
  refine ⟨?_, ?_, ?_⟩
  · rw [snapshot_pages_entry_counts]
    rw [← List.length_flatten]
    rw [snapshotChunks_flatten]
    rfl
  · rw [snapshot_pages_page_numbers, snapshot_pages_length]
  · intro h
    subst h
    rw [snapshot_pages_length]
    rw [snapshotChunks_nonpos _ _ (Or.inl rfl)]
    rfl

/-- Instantiation of C3's null-`page_size` clause at a concrete snapshot
call. -/
theorem c3_witness :
    (none : Option Int) = none ∧
    (snapshot_directory "/snap" ⟨2026, 1, 2, 3, 4, 5⟩ "/tmp/d" "d"
      (FSNode.dir "d" 0 0 [FSNode.file "a.txt" 1 2]) none).pages.length = 1 :=
  ⟨rfl, (c3_snapshot_result_invariants "/snap" ⟨2026, 1, 2, 3, 4, 5⟩ "/tmp/d" "d"
    (FSNode.dir "d" 0 0 [FSNode.file "a.txt" 1 2]) none).2.2 rfl⟩

/-- C2: with a positive integer `page_size` `P`, `snapshot_directory`
splits the collected entry sequence into consecutive order-preserving
chunks of at most `P` entries (their concatenation is the sequence
itself), producing `ceil(total/P)` pages when there are entries and
exactly one page with zero entries when there are none; with `page_size`
unset or non-positive the whole sequence becomes a single chunk/page. -/
theorem c2_snapshot_pagination (sr : String) (t : Timestamp) (dp dn : String)
    (root : FSNode) (ps : Option Int) :
    (∀ p : Int, ps = some p → 0 < p →
      ((snapshotChunks (iterSnapshotEntries root) ps).flatten =
        iterSnapshotEntries root ∧
       (∀ c ∈ snapshotChunks (iterSnapshotEntries root) ps, c.length ≤ p.toNat) ∧
       (snapshot_directory sr t dp dn root ps).page_count =
         (if (iterSnapshotEntries root).length = 0 then 1
          else ((iterSnapshotEntries root).length + p.toNat - 1) / p.toNat) ∧
       ((iterSnapshotEntries root).length = 0 →
         (snapshot_directory sr t dp dn root ps).pages.map
           (fun pg => pg.entry_count) = [0]))) ∧
    ((ps = none ∨ ∃ p : Int, ps = some p ∧ p ≤ 0) →
      snapshotChunks (iterSnapshotEntries root) ps = [iterSnapshotEntries root] ∧
      (snapshot_directory sr t dp dn root ps).page_count = 1) := by
  constructor
  · intro p hps hp
    subst hps
    refine ⟨snapshotChunks_flatten _ _, snapshotChunks_le _ p hp, ?_, ?_⟩
    · simp only [FolderSnapshotResult.page_count]
      rw [snapshot_pages_length, snapshotChunks_length_pos _ p hp]
    · intro h0
      have hxs : iterSnapshotEntries root = [] := List.length_eq_zero.mp h0
      rw [snapshot_pages_entry_counts, hxs]
      have hone : snapshotChunks ([] : List SnapshotEntry) (some p) = [[]] := by
        have hnp : ¬ p ≤ 0 := not_le.mpr hp
        have hc : chunk_entries ([] : List SnapshotEntry) (some p) = [] := by
          rw [chunk_entries]
          simp only [hnp, if_false]
          have : (List.length ([] : List SnapshotEntry) + p.toNat - 1) / p.toNat = 0 :=
            Nat.div_eq_of_lt (by simp; omega)
          rw [this]
          simp
        simp [snapshotChunks, hc]
      rw [hone]
      rfl
  · intro h
    refine ⟨snapshotChunks_nonpos _ _ h, ?_⟩
    simp only [FolderSnapshotResult.page_count]
    rw [snapshot_pages_length, snapshotChunks_nonpos _ _ h]
    rfl

/-- Instantiation of C2's positive-`page_size` clause at a concrete
snapshot call with three entries and a page size of two. -/
theorem c2_witness :
    (some (2 : Int) = some 2) ∧ ((0 : Int) < 2) ∧
    ((snapshotChunks (iterSnapshotEntries (FSNode.dir "src" 0 0
        [FSNode.file "a.txt" 1 2, FSNode.file "b.txt" 3 4,
         FSNode.file "c.txt" 5 6])) (some 2)).flatten =
      iterSnapshotEntries (FSNode.dir "src" 0 0
        [FSNode.file "a.txt" 1 2, FSNode.file "b.txt" 3 4,
         FSNode.file "c.txt" 5 6]) ∧
     (∀ c ∈ snapshotChunks (iterSnapshotEntries (FSNode.dir "src" 0 0
        [FSNode.file "a.txt" 1 2, FSNode.file "b.txt" 3 4,
         FSNode.file "c.txt" 5 6])) (some 2), c.length ≤ (2 : Int).toNat) ∧
     (snapshot_directory "/snap" ⟨2026, 1, 2, 3, 4, 5⟩ "/tmp/src" "src"
        (FSNode.dir "src" 0 0 [FSNode.file "a.txt" 1 2, FSNode.file "b.txt" 3 4,
         FSNode.file "c.txt" 5 6]) (some 2)).page_count =
       (if (iterSnapshotEntries (FSNode.dir "src" 0 0
          [FSNode.file "a.txt" 1 2, FSNode.file "b.txt" 3 4,
           FSNode.file "c.txt" 5 6])).length = 0 then 1
        else ((iterSnapshotEntries (FSNode.dir "src" 0 0
          [FSNode.file "a.txt" 1 2, FSNode.file "b.txt" 3 4,
           FSNode.file "c.txt" 5 6])).length + (2 : Int).toNat - 1) /
            (2 : Int).toNat) ∧
     ((iterSnapshotEntries (FSNode.dir "src" 0 0
        [FSNode.file "a.txt" 1 2, FSNode.file "b.txt" 3 4,
         FSNode.file "c.txt" 5 6])).length = 0 →
       (snapshot_directory "/snap" ⟨2026, 1, 2, 3, 4, 5⟩ "/tmp/src" "src"
          (FSNode.dir "src" 0 0 [FSNode.file "a.txt" 1 2, FSNode.file "b.txt" 3 4,
           FSNode.file "c.txt" 5 6]) (some 2)).pages.map
         (fun pg => pg.entry_count) = [0])) :=
  ⟨rfl, by decide,
    (c2_snapshot_pagination "/snap" ⟨2026, 1, 2, 3, 4, 5⟩ "/tmp/src" "src"
      (FSNode.dir "src" 0 0 [FSNode.file "a.txt" 1 2, FSNode.file "b.txt" 3 4,
       FSNode.file "c.txt" 5 6]) (some 2)).1 2 rfl (by decide)⟩

/-- C4: every page's output path is
`<snapshot-root>/<sanitized-basename>_<YYYYMMDDTHHMMSSZ>[_p<NNN>].json`,
where the sanitized basename replaces every character that is not
alphanumeric, hyphen or underscore with an underscore and defaults to
`root` for an empty basename; the `_pNNN` suffix (1-based page number
zero-padded to 3 digits) appears exactly when the snapshot has more than
one page, and every page of one call uses the same timestamp `t`. -/
theorem c4_snapshot_filenames (sr : String) (t : Timestamp) (dp dn : String)
    (root : FSNode) (ps : Option Int) :
    ∀ pg ∈ (snapshot_directory sr t dp dn root ps).pages,
      pg.path = sr ++ "/" ++
        (String.mk ((if dn = "" then "root" else dn).data.map
            (fun ch => if pyIsAlnum ch || ch = '-' || ch = '_' then ch else '_')) ++
          "_" ++ strftimeBasic t ++
          (if 1 < (snapshot_directory sr t dp dn root ps).page_count
            then "_p" ++ padZeros 3 pg.page else "") ++ ".json") := by
  intro pg hpg
  have hcount : (snapshot_directory sr t dp dn root ps).page_count =
      (snapshotChunks (iterSnapshotEntries root) ps).length := by
    simp only [FolderSnapshotResult.page_count]
    exact snapshot_pages_length sr t dp dn root ps
  simp only [snapshot_directory] at hpg
  rw [List.mem_map] at hpg
  obtain ⟨ic, _, hf⟩ := hpg
  rw [hcount]
  subst hf
  rfl

/-- Instantiation of C4 at a concrete single-page snapshot call. -/
theorem c4_witness :
    (SnapshotPage.mk 1 "/snap/source_20260102T030405Z.json" 1) ∈
      (snapshot_directory "/snap" ⟨2026, 1, 2, 3, 4, 5⟩ "/tmp/source" "source"
        (FSNode.dir "source" 0 0 [FSNode.file "a.txt" 1 2]) none).pages ∧
    (SnapshotPage.mk 1 "/snap/source_20260102T030405Z.json" 1).path =
      "/snap" ++ "/" ++
      (String.mk ((if "source" = "" then "root" else "source").data.map
          (fun ch => if pyIsAlnum ch || ch = '-' || ch = '_' then ch else '_')) ++
        "_" ++ strftimeBasic ⟨2026, 1, 2, 3, 4, 5⟩ ++
        (if 1 < (snapshot_directory "/snap" ⟨2026, 1, 2, 3, 4, 5⟩ "/tmp/source"
            "source" (FSNode.dir "source" 0 0 [FSNode.file "a.txt" 1 2])
            none).page_count
          then "_p" ++ padZeros 3
            (SnapshotPage.mk 1 "/snap/source_20260102T030405Z.json" 1).page
          else "") ++ ".json") := by
  have hmem : (SnapshotPage.mk 1 "/snap/source_20260102T030405Z.json" 1) ∈
      (snapshot_directory "/snap" ⟨2026, 1, 2, 3, 4, 5⟩ "/tmp/source" "source"
        (FSNode.dir "source" 0 0 [FSNode.file "a.txt" 1 2]) none).pages := by
    simp only [snapshot_directory, iterSnapshotEntries]
    rw [walkDir_eq]
    decide
  exact ⟨hmem, c4_snapshot_filenames "/snap" ⟨2026, 1, 2, 3, 4, 5⟩ "/tmp/source"
    "source" (FSNode.dir "source" 0 0 [FSNode.file "a.txt" 1 2]) none _ hmem⟩

/-! ## Shape of the walk output -/

theorem walk_entries_shape :
    ∀ (n : Nat) (cs : List FSNode) (rel : List String),
      FSNode.sizeList cs ≤ n → ∀ e ∈ walkDir rel cs,
      ∃ segs, e.relSegs = rel ++ segs ∧ segs ≠ [] ∧
        hasPathChildren cs segs = true ∧ ∀ s ∈ segs, isHidden s = false := by
  intro n
  induction n using Nat.strong_induction_on with
  | _ n ih =>
    intro cs rel hsize e he
    rw [walkDir_eq] at he
    rcases List.mem_append.mp he with hAB | hC
    · rcases List.mem_append.mp hAB with hA | hB
      · rw [List.mem_map] at hA
        obtain ⟨c, hc, hce⟩ := hA
        have hc2 := mem_sortCI.mp hc
        rw [List.mem_filter] at hc2
        obtain ⟨hcmem, hcprop⟩ := hc2
        rw [Bool.and_eq_true] at hcprop
        have hvis : isHidden c.name = false := by
          have h := hcprop.2
          rwa [Bool.not_eq_true'] at h
        refine ⟨[c.name], ?_, by simp, ?_, ?_⟩
        · rw [← hce]; rfl
        · apply List.any_eq_true.mpr
          exact ⟨c, hcmem, by simp [hasPathChildren]⟩
        · intro s hs
          rw [List.mem_singleton.mp hs]
          exact hvis
      · rw [List.mem_map] at hB
        obtain ⟨c, hc, hce⟩ := hB
        have hc2 := mem_sortCI.mp hc
        rw [List.mem_filter] at hc2
        obtain ⟨hcmem, hcprop⟩ := hc2
        rw [Bool.and_eq_true] at hcprop
        have hvis : isHidden c.name = false := by
          have h := hcprop.2
          rwa [Bool.not_eq_true'] at h
        refine ⟨[c.name], ?_, by simp, ?_, ?_⟩
        · rw [← hce]; rfl
        · apply List.any_eq_true.mpr
          exact ⟨c, hcmem, by simp [hasPathChildren]⟩
        · intro s hs
          rw [List.mem_singleton.mp hs]
          exact hvis
    · rw [List.mem_flatMap] at hC
      obtain ⟨c, hc, hce⟩ := hC
      have hc2 := mem_sortCI.mp hc
      rw [List.mem_filter] at hc2
      obtain ⟨hcmem, hcprop⟩ := hc2
      rw [Bool.and_eq_true] at hcprop
      have hvis : isHidden c.name = false := by
        have h := hcprop.2
        rwa [Bool.not_eq_true'] at h
      have hlt : FSNode.sizeList c.children < n := by
        have h1 := FSNode.size_le_sizeList hcmem
        have h2 := FSNode.size_eq_children c
        omega
      obtain ⟨segs', h1, h2, h3, h4⟩ :=
        ih (FSNode.sizeList c.children) hlt c.children (rel ++ [c.name]) le_rfl e hce
      refine ⟨c.name :: segs', ?_, by simp, ?_, ?_⟩
      · rw [h1, List.append_assoc]
        rfl
      · apply List.any_eq_true.mpr
        exact ⟨c, hcmem, by simp [h3]⟩
      · intro s hs
        rcases List.mem_cons.mp hs with h | h
        · rw [h]; exact hvis
        · exact h4 s h

/-- C1: the snapshot traversal is top-down depth-first: at each level it
drops every child whose name starts with a dot (so pruned hidden
directories contribute no descendants anywhere in the output), emits one
entry per visible subdirectory (sorted case-insensitively ascending by
name) followed by one entry per visible file (also sorted), and only then
descends into the visible subdirectories in sorted order. -/
theorem c1_snapshot_traversal :
    (∀ (rel : List String) (children : List FSNode),
      walkDir rel children =
        (sortCI (children.filter (fun c => c.isDir && ! isHidden c.name))).map
          (fun c => SnapshotEntry.from_path rel c) ++
        (sortCI (children.filter (fun c => ! c.isDir && ! isHidden c.name))).map
          (fun c => SnapshotEntry.from_path rel c) ++
        (sortCI (children.filter (fun c => c.isDir && ! isHidden c.name))).flatMap
          (fun c => walkDir (rel ++ [c.name]) c.children)) ∧
    (∀ (children : List FSNode),
      (sortCI (children.filter (fun c => c.isDir && ! isHidden c.name))).Pairwise
        nameLeP ∧
      (sortCI (children.filter (fun c => ! c.isDir && ! isHidden c.name))).Pairwise
        nameLeP) ∧
    (∀ (root : FSNode), ∀ e ∈ iterSnapshotEntries root,
      e.relSegs ≠ [] ∧ ∀ s ∈ e.relSegs, isHidden s = false) := by
  refine ⟨walkDir_eq, fun children => ⟨sortCI_sorted _, sortCI_sorted _⟩, ?_⟩
  intro root e he
  simp only [iterSnapshotEntries] at he
  obtain ⟨segs, h1, h2, _h3, h4⟩ := walk_entries_shape
    (FSNode.sizeList root.children) root.children [] le_rfl e he
  rw [List.nil_append] at h1
  rw [h1]
  exact ⟨h2, h4⟩

/-- Instantiation of C1's pruning clause at a concrete traversal. -/
theorem c1_witness :
    (SnapshotEntry.mk ["a.txt"] false 1 2) ∈
      iterSnapshotEntries (FSNode.dir "d" 0 0 [FSNode.file "a.txt" 1 2]) ∧
    ((SnapshotEntry.mk ["a.txt"] false 1 2).relSegs ≠ [] ∧
      ∀ s ∈ (SnapshotEntry.mk ["a.txt"] false 1 2).relSegs,
        isHidden s = false) := by
  have hmem : (SnapshotEntry.mk ["a.txt"] false 1 2) ∈
      iterSnapshotEntries (FSNode.dir "d" 0 0 [FSNode.file "a.txt" 1 2]) := by
    simp only [iterSnapshotEntries]
    rw [walkDir_eq]
    decide
  exact ⟨hmem, c1_snapshot_traversal.2.2
    (FSNode.dir "d" 0 0 [FSNode.file "a.txt" 1 2]) _ hmem⟩

/-! ## Valid names and descent paths -/

theorem wfNames_parts {c : FSNode} (h : wfNames c = true) :
    validName c.name = true ∧ wfNamesList c.children = true := by
  cases c with
  | file n s m => exact ⟨h, rfl⟩
  | dir n s m cs =>
    rw [wfNames, Bool.and_eq_true] at h
    exact ⟨h.1, h.2⟩

theorem wfNamesList_mem : ∀ {cs : List FSNode} {c : FSNode},
    wfNamesList cs = true → c ∈ cs → wfNames c = true := by
  intro cs
  induction cs with
  | nil => intro c _ hc; cases hc
  | cons d ds ih =>
    intro c hwf hc
    rw [wfNamesList, Bool.and_eq_true] at hwf
    rcases List.mem_cons.mp hc with h | h
    · rw [h]; exact hwf.1
    · exact ih hwf.2 h

theorem segs_validName :
    ∀ (segs : List String) (cs : List FSNode),
      hasPathChildren cs segs = true → wfNamesList cs = true →
      ∀ s ∈ segs, validName s = true := by
  intro segs
  induction segs with
  | nil => intro cs _ _ s hs; cases hs
  | cons a rest ih =>
    intro cs hpath hwf s hs
    have hany : cs.any (fun c => c.name == a && hasPathChildren c.children rest) =
        true := hpath
    rw [List.any_eq_true] at hany
    obtain ⟨c, hcmem, hcp⟩ := hany
    rw [Bool.and_eq_true] at hcp
    have hname : c.name = a := eq_of_beq hcp.1
    have hparts := wfNames_parts (wfNamesList_mem hwf hcmem)
    rcases List.mem_cons.mp hs with h | h
    · rw [h, ← hname]
      exact hparts.1
    · exact ih c.children hcp.2 hparts.2 s h

theorem validName_facts {s : String} (h : validName s = true) :
    s ≠ "" ∧ s ≠ "." ∧ s ≠ ".." ∧ s.data.contains '/' = false := by
  rw [validName, Bool.and_eq_true, Bool.and_eq_true, Bool.and_eq_true] at h
  obtain ⟨⟨⟨h1, h2⟩, h3⟩, h4⟩ := h
  rw [Bool.not_eq_true'] at h4
  exact ⟨of_decide_eq_true h1, of_decide_eq_true h2, of_decide_eq_true h3, h4⟩

theorem joinSegs_head_ne_slash {s : String} (rest : List String)
    (hval : validName s = true) :
    (joinSegs (s :: rest)).data.head? ≠ some '/' := by
  obtain ⟨hne, _, _, hcont⟩ := validName_facts hval
  have hdata : s.data ≠ [] := by
    intro h
    exact hne (String.ext h)
  obtain ⟨c, t, hct⟩ : ∃ c t, s.data = c :: t := by
    cases hd : s.data with
    | nil => exact absurd hd hdata
    | cons c t => exact ⟨c, t, rfl⟩
  have hcne : c ≠ '/' := by
    intro h
    have hmem : '/' ∈ s.data := by
      rw [hct, ← h]
      exact List.mem_cons_self c t
    have : s.data.contains '/' = true := List.elem_iff.mpr hmem
    rw [hcont] at this
    cases this
  cases rest with
  | nil =>
    show s.data.head? ≠ some '/'
    rw [hct]
    intro heq
    exact hcne (Option.some.inj heq)
  | cons r rs =>
    show ((s ++ "/" ++ joinSegs (r :: rs))).data.head? ≠ some '/'
    rw [String.data_append, String.data_append, hct, List.cons_append,
      List.cons_append]
    intro heq
    exact hcne (Option.some.inj heq)

/-- C7: under well-formed file names, every snapshot entry's relative path
is the forward-slash join of a nonempty segment list that labels an actual
descent below the snapshot root; every segment is a valid name (so none is
empty, `.` or `..` — the path cannot escape the root) and the rendered
path does not start with a slash (it is never absolute). -/
theorem c7_relative_paths (root : FSNode) (hwf : wfNames root = true) :
    ∀ e ∈ iterSnapshotEntries root,
      ∃ segs, segs ≠ [] ∧ e.relSegs = segs ∧
        e.relative_path = joinSegs segs ∧
        hasPath root segs = true ∧
        (∀ s ∈ segs, validName s = true) ∧
        "" ∉ segs ∧ "." ∉ segs ∧ ".." ∉ segs ∧
        e.relative_path.data.head? ≠ some '/' := by
  intro e he
  simp only [iterSnapshotEntries] at he
  obtain ⟨segs, h1, h2, h3, _h4⟩ := walk_entries_shape
    (FSNode.sizeList root.children) root.children [] le_rfl e he
  rw [List.nil_append] at h1
  have hval : ∀ s ∈ segs, validName s = true :=
    segs_validName segs root.children h3 (wfNames_parts hwf).2
  have hjoin : e.relative_path = joinSegs segs := by
    rw [SnapshotEntry.relative_path, h1]
  refine ⟨segs, h2, h1, hjoin, h3, hval, ?_, ?_, ?_, ?_⟩
  · intro hmem
    exact absurd (hval "" hmem) (by decide)
  · intro hmem
    exact absurd (hval "." hmem) (by decide)
  · intro hmem
    exact absurd (hval ".." hmem) (by decide)
  · rw [hjoin]
    cases segs with
    | nil => exact absurd rfl h2
    | cons s rest =>
      exact joinSegs_head_ne_slash rest (hval s (List.mem_cons_self s rest))

/-- Instantiation of C7 at a concrete well-formed tree. -/
theorem c7_witness :
    wfNames (FSNode.dir "d" 0 0 [FSNode.file "b.txt" 3 4]) = true ∧
    (SnapshotEntry.mk ["b.txt"] false 3 4) ∈
      iterSnapshotEntries (FSNode.dir "d" 0 0 [FSNode.file "b.txt" 3 4]) ∧
    (∃ segs, segs ≠ [] ∧
      (SnapshotEntry.mk ["b.txt"] false 3 4).relSegs = segs ∧
      (SnapshotEntry.mk ["b.txt"] false 3 4).relative_path = joinSegs segs ∧
      hasPath (FSNode.dir "d" 0 0 [FSNode.file "b.txt" 3 4]) segs = true ∧
      (∀ s ∈ segs, validName s = true) ∧
      "" ∉ segs ∧ "." ∉ segs ∧ ".." ∉ segs ∧
      (SnapshotEntry.mk ["b.txt"] false 3 4).relative_path.data.head? ≠
        some '/') := by
  have hwf : wfNames (FSNode.dir "d" 0 0 [FSNode.file "b.txt" 3 4]) = true := by
    decide
  have hmem : (SnapshotEntry.mk ["b.txt"] false 3 4) ∈
      iterSnapshotEntries (FSNode.dir "d" 0 0 [FSNode.file "b.txt" 3 4]) := by
    simp only [iterSnapshotEntries]
    rw [walkDir_eq]
    decide
  exact ⟨hwf, hmem,
    c7_relative_paths (FSNode.dir "d" 0 0 [FSNode.file "b.txt" 3 4]) hwf _ hmem⟩

/-! ## Directory inspection claims -/

/-- C5: `inspect` lists exactly the immediate visible children (a
permutation of the hidden-filtered child list, so non-recursive and
complete), sorted case-insensitively ascending by name, with no hidden
name, size 0 for directory entries and the stat byte length for file
entries. -/
theorem c5_inspect_listing (dirPath : String) (children : List FSNode) :
    (iter_directory_entries dirPath children).Pairwise
      (fun a b => lowerLe a.name b.name = true) ∧
    (iter_directory_entries dirPath children).Perm
      ((children.filter (fun c => ! isHidden c.name)).map
        (DirectoryEntry.from_path dirPath)) ∧
    (∀ e ∈ iter_directory_entries dirPath children,
      isHidden e.name = false ∧
      (e.is_directory = true → e.size_bytes = 0) ∧
      (e.is_directory = false →
        ∃ c ∈ children, c.isDir = false ∧ e.name = c.name ∧
          e.size_bytes = c.stSize)) := by
  refine ⟨?_, ?_, ?_⟩
  · have h1 : (sortCI children).Pairwise nameLeP := sortCI_sorted children
    have h2 := h1.filter (fun c => ! isHidden c.name)
    exact h2.map _ (fun a b hab => hab)
  · have hperm := sortCI_perm children
    have h2 := hperm.filter (fun c => ! isHidden c.name)
    exact h2.map _
  · intro e he
    simp only [iter_directory_entries] at he
    rw [List.mem_map] at he
    obtain ⟨c, hc, hce⟩ := he
    rw [List.mem_filter] at hc
    obtain ⟨hcs, hcp⟩ := hc
    have hcmem : c ∈ children := mem_sortCI.mp hcs
    have hvis : isHidden c.name = false := by rwa [Bool.not_eq_true'] at hcp
    subst hce
    refine ⟨hvis, ?_, ?_⟩
    · intro hdir
      simp only [DirectoryEntry.from_path]
      simp only [DirectoryEntry.from_path] at hdir
      rw [hdir]
      rfl
    · intro hdir
      simp only [DirectoryEntry.from_path] at hdir
      refine ⟨c, hcmem, hdir, rfl, ?_⟩
      simp only [DirectoryEntry.from_path]
      rw [hdir]
      rfl

/-- Instantiation of C5's per-entry clause at a concrete listing. -/
theorem c5_witness :
    (DirectoryEntry.mk "b.txt" "/d/b.txt" false 5 10) ∈
      iter_directory_entries "/d" [FSNode.file "b.txt" 5 10] ∧
    (isHidden (DirectoryEntry.mk "b.txt" "/d/b.txt" false 5 10).name = false ∧
     ((DirectoryEntry.mk "b.txt" "/d/b.txt" false 5 10).is_directory = true →
       (DirectoryEntry.mk "b.txt" "/d/b.txt" false 5 10).size_bytes = 0) ∧
     ((DirectoryEntry.mk "b.txt" "/d/b.txt" false 5 10).is_directory = false →
       ∃ c ∈ [FSNode.file "b.txt" 5 10], c.isDir = false ∧
         (DirectoryEntry.mk "b.txt" "/d/b.txt" false 5 10).name = c.name ∧
         (DirectoryEntry.mk "b.txt" "/d/b.txt" false 5 10).size_bytes =
           c.stSize)) := by
  have hmem : (DirectoryEntry.mk "b.txt" "/d/b.txt" false 5 10) ∈
      iter_directory_entries "/d" [FSNode.file "b.txt" 5 10] := by decide
  exact ⟨hmem, (c5_inspect_listing "/d" [FSNode.file "b.txt" 5 10]).2.2 _ hmem⟩

/-- C6: a nonexistent path fails inside the service with the single domain
exception carrying exactly "해당 경로가 존재하지 않습니다." and the HTTP layer maps
it to status 400 with that detail; a path resolving to a non-directory
fails with the `NotADirectory` message, also mapped to 400. -/
theorem c6_inspect_error_mapping :
    inspect_folder .notFound =
      .error (HTTPErrorResponse.mk 400 "해당 경로가 존재하지 않습니다.") ∧
    (∀ p : String, inspect_folder (.nonDirectory p) =
      .error (HTTPErrorResponse.mk 400 "디렉터리 경로를 선택해주세요.")) ∧
    inspect_directory .notFound =
      .error (DirectoryInspectionError.mk "해당 경로가 존재하지 않습니다.") ∧
    (∀ p : String, inspect_directory (.nonDirectory p) =
      .error (DirectoryInspectionError.mk "디렉터리 경로를 선택해주세요.")) :=
  ⟨rfl, fun _ => rfl, rfl, fun _ => rfl⟩

/-! ## Sentence splitting lemmas -/

theorem dropWhile_idem {α : Type} (p : α → Bool) (l : List α) :
    List.dropWhile p (List.dropWhile p l) = List.dropWhile p l := by
  induction l with
  | nil => rfl
  | cons x t ih =>
    rw [List.dropWhile_cons]
    by_cases h : p x = true
    · rw [if_pos h]
      exact ih
    · rw [if_neg h, List.dropWhile_cons, if_neg h]

theorem dropWhile_eq_cons_head {α : Type} {p : α → Bool} {l t : List α} {x : α}
    (h : List.dropWhile p l = x :: t) : p x = false := by
  induction l with
  | nil => cases h
  | cons y ys ih =>
    rw [List.dropWhile_cons] at h
    by_cases hy : p y = true
    · rw [if_pos hy] at h
      exact ih h
    · rw [if_neg hy] at h
      rw [← (List.cons.inj h).1]
      exact Bool.not_eq_true _ ▸ eq_false_of_ne_true hy

theorem mem_pyStripChars {c : Char} {l : List Char} (h : c ∈ pyStripChars l) :
    c ∈ l := by
  rw [pyStripChars, List.mem_reverse] at h
  have h2 := (List.dropWhile_sublist pyIsSpace).mem h
  rw [List.mem_reverse] at h2
  exact (List.dropWhile_sublist pyIsSpace).mem h2

theorem pyStripChars_idem (l : List Char) :
    pyStripChars (pyStripChars l) = pyStripChars l := by
  have hD : List.dropWhile pyIsSpace (List.dropWhile pyIsSpace l) =
      List.dropWhile pyIsSpace l := dropWhile_idem pyIsSpace l
  set D := List.dropWhile pyIsSpace l with hDdef
  set E := List.dropWhile pyIsSpace D.reverse with hEdef
  have hDE : List.dropWhile pyIsSpace E = E := by
    rw [hEdef]
    exact dropWhile_idem pyIsSpace D.reverse
  have hstep : E.reverse.dropWhile pyIsSpace = E.reverse := by
    cases hE : E.reverse with
    | nil => rfl
    | cons x t =>
      obtain ⟨pre, hpre⟩ := @List.dropWhile_suffix Char D.reverse pyIsSpace
      have hDeq : D = E.reverse ++ pre.reverse := by
        rw [← List.reverse_reverse D, ← hpre, List.reverse_append, hEdef]
      have hDcons : List.dropWhile pyIsSpace D = x :: (t ++ pre.reverse) := by
        rw [hD, hDeq, hE, List.cons_append]
      have hx : pyIsSpace x = false := dropWhile_eq_cons_head hDcons
      rw [List.dropWhile_cons, hx]
      simp
  show ((((pyStripChars l).dropWhile pyIsSpace).reverse.dropWhile
      pyIsSpace).reverse) = pyStripChars l
  have hself : pyStripChars l = E.reverse := rfl
  rw [hself, hstep, List.reverse_reverse, hDE]

theorem pyStrip_of_stripped (f : List Char) :
    pyStrip (String.mk (pyStripChars f)) = String.mk (pyStripChars f) := by
  rw [pyStrip]
  exact congrArg String.mk (pyStripChars_idem f)

theorem reSplitRuns_no_endings (l : List Char)
    (h : ∀ c ∈ l, isSentenceEnding c = false) : reSplitRuns l = [l] := by
  induction l with
  | nil => rfl
  | cons x t ih =>
    have hx : isSentenceEnding x = false := h x (List.mem_cons_self x t)
    have ht : reSplitRuns t = [t] := ih (fun c hc => h c (List.mem_cons_of_mem x hc))
    simp [reSplitRuns, hx, ht]

theorem reSplitRuns_fragments (l : List Char) :
    ∀ f ∈ reSplitRuns l, ∀ c ∈ f, isSentenceEnding c = false := by
  induction l with
  | nil =>
    intro f hf c hc
    rw [List.mem_singleton.mp hf] at hc
    cases hc
  | cons x t ih =>
    intro f hf c hc
    by_cases hx : isSentenceEnding x = true
    · cases t with
      | nil =>
        simp only [reSplitRuns, hx, if_true] at hf
        rcases List.mem_cons.mp hf with h | h
        · rw [h] at hc; cases hc
        · rw [List.mem_singleton.mp h] at hc; cases hc
      | cons d ds =>
        by_cases hd : isSentenceEnding d = true
        · have heq : reSplitRuns (x :: d :: ds) = reSplitRuns (d :: ds) := by
            simp [reSplitRuns, hx, hd]
          rw [heq] at hf
          exact ih f hf c hc
        · have heq : reSplitRuns (x :: d :: ds) = [] :: reSplitRuns (d :: ds) := by
            simp [reSplitRuns, hx, hd]
          rw [heq] at hf
          rcases List.mem_cons.mp hf with h | h
          · rw [h] at hc; cases hc
          · exact ih f h c hc
    · have hxf : isSentenceEnding x = false := eq_false_of_ne_true hx
      cases hr : reSplitRuns t with
      | nil =>
        have heq : reSplitRuns (x :: t) = [[x]] := by
          simp [reSplitRuns, hxf, hr]
        rw [heq] at hf
        rw [List.mem_singleton.mp hf] at hc
        rw [List.mem_singleton.mp hc]
        exact hxf
      | cons h0 t0 =>
        have heq : reSplitRuns (x :: t) = (x :: h0) :: t0 := by
          simp [reSplitRuns, hxf, hr]
        rw [heq] at hf
        rcases List.mem_cons.mp hf with hfe | hfe
        · rw [hfe] at hc
          rcases List.mem_cons.mp hc with hce | hce
          · rw [hce]; exact hxf
          · exact ih h0 (hr ▸ List.mem_cons_self h0 t0) c hce
        · exact ih f (hr ▸ List.mem_cons_of_mem h0 hfe) c hc

theorem pyStripChars_eq_nil {l : List Char} (h : pyStripChars l = []) :
    ∀ c ∈ l, pyIsSpace c = true := by
  rw [pyStripChars, List.reverse_eq_nil_iff] at h
  intro c hc
  have hsplit : l.takeWhile pyIsSpace ++ l.dropWhile pyIsSpace = l :=
    List.takeWhile_append_dropWhile pyIsSpace l
  rw [← hsplit] at hc
  rcases List.mem_append.mp hc with h2 | h2
  · exact List.mem_takeWhile_imp h2
  · have h3 : c ∈ (l.dropWhile pyIsSpace).reverse := List.mem_reverse.mpr h2
    have h4 : ∀ x ∈ (l.dropWhile pyIsSpace).reverse, pyIsSpace x = true :=
      List.dropWhile_eq_nil_iff.mp h
    exact h4 c h3

theorem pyIsSpace_not_ending {c : Char} (h : pyIsSpace c = true) :
    isSentenceEnding c = false := by
  simp only [pyIsSpace, Bool.or_eq_true, decide_eq_true_eq] at h
  rcases h with ((((rfl | rfl) | rfl) | rfl) | rfl) | rfl <;> decide

theorem split_formula (text : String) :
    split_sentences_ko text =
      ((reSplitRuns text.data).map (fun l => String.mk (pyStripChars l))).filter
        (fun s => s ≠ "") := by
  rw [split_sentences_ko]
  by_cases hcond : (text = "" || pyStrip text = "") = true
  · rw [if_pos hcond]
    rcases Bool.or_eq_true_iff.mp hcond with h | h
    · have htext : text = "" := of_decide_eq_true h
      rw [htext]
      rfl
    · have hstrip : pyStrip text = "" := of_decide_eq_true h
      have hnil : pyStripChars text.data = [] := by
        have := congrArg String.data hstrip
        exact this
      have hws : ∀ c ∈ text.data, pyIsSpace c = true := pyStripChars_eq_nil hnil
      have hne : ∀ c ∈ text.data, isSentenceEnding c = false :=
        fun c hc => pyIsSpace_not_ending (hws c hc)
      rw [reSplitRuns_no_endings text.data hne]
      rw [List.map_singleton]
      rw [hnil]
      rfl
  · rw [if_neg hcond]

/-- C8: the sentence splitter equals, for every input, the pipeline that
splits the text on maximal runs of `.`, `!`, `?`, strips surrounding
whitespace from each fragment and discards the fragments that strip to
empty (so the early return for empty/whitespace-only input changes
nothing); every returned sentence is nonempty, already stripped and free
of sentence-ending characters, and empty or whitespace-only input yields
the empty list. -/
theorem c8_sentence_split (text : String) :
    (split_sentences_ko text =
      ((reSplitRuns text.data).map (fun l => String.mk (pyStripChars l))).filter
        (fun s => s ≠ "")) ∧
    (∀ s ∈ split_sentences_ko text,
      s ≠ "" ∧ pyStrip s = s ∧ ∀ c ∈ s.data, isSentenceEnding c = false) ∧
    (pyStrip text = "" → split_sentences_ko text = []) := by
  refine ⟨split_formula text, ?_, ?_⟩
  · intro s hs
    rw [split_formula] at hs
    rw [List.mem_filter] at hs
    obtain ⟨hmem, hne⟩ := hs
    rw [List.mem_map] at hmem
    obtain ⟨f, hf, hfs⟩ := hmem
    refine ⟨of_decide_eq_true hne, ?_, ?_⟩
    · rw [← hfs]
      exact pyStrip_of_stripped f
    · intro c hc
      have hcf : c ∈ f := by
        rw [← hfs] at hc
        exact mem_pyStripChars hc
      exact reSplitRuns_fragments text.data f hf c hcf
  · intro h
    rw [split_sentences_ko]
    have hcond : (text = "" || pyStrip text = "") = true := by
      rw [Bool.or_eq_true_iff]
      exact Or.inr (decide_eq_true h)
    rw [if_pos hcond]

/-- Instantiation of C8's per-sentence and whitespace-only clauses. -/
theorem c8_witness :
    "a" ∈ split_sentences_ko " a. " ∧
    ("a" ≠ "" ∧ pyStrip "a" = "a" ∧
      ∀ c ∈ "a".data, isSentenceEnding c = false) ∧
    pyStrip "  " = "" ∧ split_sentences_ko "  " = [] := by
  have hmem : "a" ∈ split_sentences_ko " a. " := by decide
  have hws : pyStrip "  " = "" := by decide
  exact ⟨hmem, (c8_sentence_split " a. ").2.1 "a" hmem, hws,
    (c8_sentence_split "  ").2.2 hws⟩

/-- C10: on string input the analyzer first replaces every null byte with
a space, so the text handed to the keyword model and to the sentence
splitter contains no null byte; on non-string input it raises `TypeError`
without consulting the model (the result does not depend on the model
functions at all). -/
theorem c10_null_byte_sanitization {K S : Type}
    (extract_keywords : String → List K)
    (extract_per_sentence : List String → List (List S)) (s : String) :
    (keybert_analyze extract_keywords extract_per_sentence (.str s) =
      .ok (extract_keywords (replaceNullBytes s),
        if (split_sentences_ko (replaceNullBytes s)).isEmpty then []
        else (extract_per_sentence
          (split_sentences_ko (replaceNullBytes s))).filterMap
            (fun items => items.head?))) ∧
    (∀ c ∈ (replaceNullBytes s).data, c ≠ Char.ofNat 0) ∧
    (∀ (ek2 : String → List K) (eps2 : List String → List (List S)),
      keybert_analyze extract_keywords extract_per_sentence .nonStr =
        keybert_analyze ek2 eps2 .nonStr) ∧
    (keybert_analyze extract_keywords extract_per_sentence .nonStr =
      .error (.typeError "text must be a string")) := by
  refine ⟨rfl, ?_, fun _ _ => rfl, rfl⟩
  intro c hc
  have hmap : c ∈ s.data.map (fun c => if c = Char.ofNat 0 then ' ' else c) := hc
  rw [List.mem_map] at hmap
  obtain ⟨x, _, hx⟩ := hmap
  intro h0
  by_cases hxx : x = Char.ofNat 0
  · rw [if_pos hxx] at hx
    rw [← hx] at h0
    exact absurd h0 (by decide)
  · rw [if_neg hxx] at hx
    rw [← hx] at h0
    exact hxx h0

/-- Instantiation of C10's no-null-byte clause at a concrete input. -/
theorem c10_witness :
    ' ' ∈ (replaceNullBytes "a\x00b").data ∧ ' ' ≠ Char.ofNat 0 := by
  have hm : ' ' ∈ (replaceNullBytes "a\x00b").data := by decide
  exact ⟨hm, (c10_null_byte_sanitization (fun _ => ([] : List Unit))
    (fun _ => ([] : List (List Unit))) "a\x00b").2.1 ' ' hm⟩

end Nebula
